import Mathlib

/-!
Verification of the concurrency core of `src/language_demos/rust_demo.rs`
(`demonstrate_concurrency`, lines 692-708):

```rust
let counter = Arc::new(Mutex::new(0));
let mut handles = vec![];
for _ in 0..10 {
    let counter = Arc::clone(&counter);
    let handle = thread::spawn(move || {
        let mut num = counter.lock().unwrap();
        *num += 1;
    });
    handles.push(handle);
}
for handle in handles {
    handle.join().unwrap();
}
println!("Counter result: {}", *counter.lock().unwrap());
```

The shared counter protected by a mutex and mutated by N spawned workers is
embedded as a small-step interleaving semantics: a state carries the counter,
the mutex owner, the mutex poison flag and each worker's program counter, and
a scheduler is an arbitrary list of worker indices.  The mutation performed by
worker `i` inside its critical section is a parameter `fs i`, and `bad i v`
says whether worker `i` panics inside its critical section when it observes
the value `v`; the demo instantiates `fs i v = v + 1` and `bad i v = false`.
-/

set_option maxHeartbeats 1000000

namespace RustDemo

/-- Program counter of one spawned worker of the demo.  The worker closure
`move || { let mut num = counter.lock().unwrap(); *num += 1; }` is split into
its machine steps: acquire the mutex (`counter.lock()`), read the protected
value through the guard, write the mutated value back, and release the mutex
when the guard is dropped at scope exit.  `absent` marks indices where no
worker was spawned, `failed` a worker that panicked. -/
inductive WPc where
  | absent
  | toAcquire
  | toRead
  | toWrite (tmp : Nat)
  | toRelease
  | finished
  | failed
  deriving DecidableEq

/-- Global state of the demo's shared-counter section: the value inside the
`Mutex` (a `Nat`: the demo counts up from 0), the worker currently holding
the mutex, the mutex's poison flag, every worker's program counter, and a
ghost log of the workers whose mutation has committed, in commit order. -/
structure CState where
  counter : Nat
  owner : Option Nat
  poisoned : Bool
  workers : Nat → WPc
  log : List Nat

/-- Pointwise update of the worker table. -/
def setW (w : Nat → WPc) (i : Nat) (p : WPc) : Nat → WPc :=
  fun j => if j = i then p else w j

/-- One scheduler step: worker `i` advances by one machine step when it is
enabled, otherwise the state is unchanged (a worker waiting on the mutex is
blocked until the owner releases it).  `counter.lock().unwrap()` panics when
the mutex is poisoned, which sends the worker to `failed`; a panic inside the
critical section poisons the mutex and releases it (the guard is dropped
during unwinding). -/
def wstep (fs : Nat → Nat → Nat) (bad : Nat → Nat → Bool) (s : CState) (i : Nat) : CState :=
  match s.workers i with
  | .toAcquire =>
      if s.owner = none then
        if s.poisoned then { s with workers := setW s.workers i .failed }
        else { s with owner := some i, workers := setW s.workers i .toRead }
      else s
  | .toRead => { s with workers := setW s.workers i (.toWrite s.counter) }
  | .toWrite tmp =>
      if bad i tmp then
        { s with poisoned := true, owner := none, workers := setW s.workers i .failed }
      else
        { s with counter := fs i tmp,
                 workers := setW s.workers i .toRelease,
                 log := s.log ++ [i] }
  | .toRelease => { s with owner := none, workers := setW s.workers i .finished }
  | _ => s

/-- The state right after the spawn loop: counter at its initial value `v0`
(0 in the demo), mutex free and unpoisoned, the `n` spawned workers about to
acquire. -/
def initState (n : Nat) (v0 : Nat) : CState :=
  { counter := v0
    owner := none
    poisoned := false
    workers := fun i => if i < n then .toAcquire else .absent
    log := [] }

/-- Run the system under an arbitrary schedule (list of chosen worker
indices). -/
def run (fs : Nat → Nat → Nat) (bad : Nat → Nat → Bool) (s : CState)
    (sched : List Nat) : CState :=
  sched.foldl (wstep fs bad) s

/-- The demo's mutation: every worker increments by one (`*num += 1`). -/
def demoFs : Nat → Nat → Nat := fun _ v => v + 1

/-- The demo's workers never panic inside the critical section. -/
def demoBad : Nat → Nat → Bool := fun _ _ => false

/-- A run of the demo's counter section with `n` workers. -/
def demoRun (n : Nat) (sched : List Nat) : CState :=
  run demoFs demoBad (initState n 0) sched

/-- All `n` workers have terminated normally (every `join` has returned). -/
def allFinished (n : Nat) (s : CState) : Prop :=
  ∀ i < n, s.workers i = .finished

instance (n : Nat) (s : CState) : Decidable (allFinished n s) :=
  Nat.decidableBallLT n (fun i _ => s.workers i = .finished)

/-- Worker `i` is inside its critical section: between a successful lock
acquisition and the release of the guard. -/
def inCS : WPc → Bool
  | .toRead => true
  | .toWrite _ => true
  | .toRelease => true
  | _ => false

/-- Inductive invariant of the demo's concurrency section.
`hcs`: a worker inside its critical section owns the mutex (so there is at
most one).  `htmp`: the value read through the guard is the current counter.
`hcounter`: the counter is the composite of the committed mutations, applied
in commit order to the initial value.  `hlog`: the committed workers are
exactly those past their write.  `hnodup`: each worker commits at most once.
`hrange`: indices beyond `n` hold no worker. -/
structure Inv (fs : Nat → Nat → Nat) (n v0 : Nat) (s : CState) : Prop where
  hcs : ∀ i, inCS (s.workers i) = true → s.owner = some i
  htmp : ∀ i tmp, s.workers i = .toWrite tmp → tmp = s.counter
  hcounter : s.counter = s.log.foldl (fun v j => fs j v) v0
  hlog : ∀ j, j ∈ s.log ↔ (s.workers j = .toRelease ∨ s.workers j = .finished)
  hnodup : s.log.Nodup
  hrange : ∀ i, n ≤ i → s.workers i = .absent

theorem inv_init (fs : Nat → Nat → Nat) (n v0 : Nat) : Inv fs n v0 (initState n v0) := by
  refine ⟨?_, ?_, ?_, ?_, ?_, ?_⟩
  · intro i h
    simp only [initState] at h
    split at h <;> simp [inCS] at h
  · intro i tmp h
    simp only [initState] at h
    split at h <;> simp_all
  · simp [initState]
  · intro j
    simp only [initState, List.not_mem_nil, false_iff]
    split <;> simp
  · simp [initState]
  · intro i hi
    simp only [initState]
    rw [if_neg (by omega)]

theorem setW_self (w : Nat → WPc) (i : Nat) (p : WPc) : setW w i p i = p := by
  simp [setW]

theorem setW_other (w : Nat → WPc) (i j : Nat) (p : WPc) (h : j ≠ i) :
    setW w i p j = w j := by
  simp [setW, h]

theorem inv_step (fs : Nat → Nat → Nat) (bad : Nat → Nat → Bool) (n v0 : Nat)
    (s : CState) (hInv : Inv fs n v0 s) (i : Nat) :
    Inv fs n v0 (wstep fs bad s i) := by
  obtain ⟨hcs, htmp, hcounter, hlog, hnodup, hrange⟩ := hInv
  have hid : Inv fs n v0 s := ⟨hcs, htmp, hcounter, hlog, hnodup, hrange⟩
  cases hw : s.workers i with
  | absent => simpa [wstep, hw] using hid
  | finished => simpa [wstep, hw] using hid
  | failed => simpa [wstep, hw] using hid
  | toAcquire =>
    by_cases ho : s.owner = none
    · by_cases hp : s.poisoned
      · have hred : wstep fs bad s i = { s with workers := setW s.workers i .failed } := by
          simp [wstep, hw, ho, hp]
        rw [hred]
        refine ⟨?_, ?_, ?_, ?_, ?_, ?_⟩ <;> dsimp only
        · intro j h
          by_cases hj : j = i
          · subst hj; rw [setW_self] at h; simp [inCS] at h
          · rw [setW_other _ _ _ _ hj] at h; exact hcs j h
        · intro j tmp h
          by_cases hj : j = i
          · subst hj; rw [setW_self] at h; cases h
          · rw [setW_other _ _ _ _ hj] at h; exact htmp j tmp h
        · exact hcounter
        · intro j
          by_cases hj : j = i
          · subst hj
            rw [setW_self]
            simp only [hlog, hw]
            simp
          · rw [setW_other _ _ _ _ hj]; exact hlog j
        · exact hnodup
        · intro j hj
          by_cases hji : j = i
          · subst hji; rw [hrange j hj] at hw; cases hw
          · rw [setW_other _ _ _ _ hji]; exact hrange j hj
      · have hred : wstep fs bad s i =
            { s with owner := some i, workers := setW s.workers i .toRead } := by
          simp [wstep, hw, ho, hp]
        rw [hred]
        refine ⟨?_, ?_, ?_, ?_, ?_, ?_⟩ <;> dsimp only
        · intro j h
          by_cases hj : j = i
          · subst hj; rfl
          · rw [setW_other _ _ _ _ hj] at h
            have := hcs j h
            rw [ho] at this; cases this
        · intro j tmp h
          by_cases hj : j = i
          · subst hj; rw [setW_self] at h; cases h
          · rw [setW_other _ _ _ _ hj] at h; exact htmp j tmp h
        · exact hcounter
        · intro j
          by_cases hj : j = i
          · subst hj
            rw [setW_self]
            simp only [hlog, hw]
            simp
          · rw [setW_other _ _ _ _ hj]; exact hlog j
        · exact hnodup
        · intro j hj
          by_cases hji : j = i
          · subst hji; rw [hrange j hj] at hw; cases hw
          · rw [setW_other _ _ _ _ hji]; exact hrange j hj
    · have hred : wstep fs bad s i = s := by
        simp [wstep, hw, ho]
      rw [hred]; exact hid
  | toRead =>
    have hred : wstep fs bad s i =
        { s with workers := setW s.workers i (.toWrite s.counter) } := by
      simp [wstep, hw]
    rw [hred]
    have howner : s.owner = some i := hcs i (by rw [hw]; rfl)
    refine ⟨?_, ?_, ?_, ?_, ?_, ?_⟩ <;> dsimp only
    · intro j h
      by_cases hj : j = i
      · subst hj; exact howner
      · rw [setW_other _ _ _ _ hj] at h; exact hcs j h
    · intro j tmp h
      by_cases hj : j = i
      · subst hj
        rw [setW_self] at h
        cases h; rfl
      · rw [setW_other _ _ _ _ hj] at h; exact htmp j tmp h
    · exact hcounter
    · intro j
      by_cases hj : j = i
      · subst hj
        rw [setW_self]
        simp only [hlog, hw]
        simp
      · rw [setW_other _ _ _ _ hj]; exact hlog j
    · exact hnodup
    · intro j hj
      by_cases hji : j = i
      · subst hji; rw [hrange j hj] at hw; cases hw
      · rw [setW_other _ _ _ _ hji]; exact hrange j hj
  | toWrite tmp =>
    have howner : s.owner = some i := hcs i (by rw [hw]; rfl)
    by_cases hb : bad i tmp
    · have hred : wstep fs bad s i =
          { s with poisoned := true, owner := none, workers := setW s.workers i .failed } := by
        simp [wstep, hw, hb]
      rw [hred]
      refine ⟨?_, ?_, ?_, ?_, ?_, ?_⟩ <;> dsimp only
      · intro j h
        by_cases hj : j = i
        · subst hj; rw [setW_self] at h; simp [inCS] at h
        · rw [setW_other _ _ _ _ hj] at h
          have := hcs j h
          rw [howner] at this
          cases this
          exact absurd rfl hj
      · intro j t h
        by_cases hj : j = i
        · subst hj; rw [setW_self] at h; cases h
        · rw [setW_other _ _ _ _ hj] at h; exact htmp j t h
      · exact hcounter
      · intro j
        by_cases hj : j = i
        · subst hj
          rw [setW_self]
          simp only [hlog, hw]
          simp
        · rw [setW_other _ _ _ _ hj]; exact hlog j
      · exact hnodup
      · intro j hj
        by_cases hji : j = i
        · subst hji; rw [hrange j hj] at hw; cases hw
        · rw [setW_other _ _ _ _ hji]; exact hrange j hj
    · have hred : wstep fs bad s i =
          { s with counter := fs i tmp,
                   workers := setW s.workers i .toRelease,
                   log := s.log ++ [i] } := by
        simp [wstep, hw, hb]
      rw [hred]
      have hnotin : i ∉ s.log := by
        intro hmem
        rcases (hlog i).1 hmem with h1 | h1 <;> rw [hw] at h1 <;> cases h1
      refine ⟨?_, ?_, ?_, ?_, ?_, ?_⟩ <;> dsimp only
      · intro j h
        by_cases hj : j = i
        · subst hj; exact howner
        · rw [setW_other _ _ _ _ hj] at h; exact hcs j h
      · intro j t h
        by_cases hj : j = i
        · subst hj; rw [setW_self] at h; cases h
        · rw [setW_other _ _ _ _ hj] at h
          have := hcs j (by rw [h]; rfl)
          rw [howner] at this
          cases this
          exact absurd rfl hj
      · rw [List.foldl_append, ← hcounter, htmp i tmp hw]; rfl
      · intro j
        by_cases hj : j = i
        · subst hj
          rw [setW_self]
          simp [List.mem_append]
        · rw [setW_other _ _ _ _ hj]
          simp only [List.mem_append, List.mem_singleton, hj, or_false]
          exact hlog j
      · exact List.Nodup.append hnodup (List.nodup_singleton i)
          (by simp [List.disjoint_singleton, hnotin])
      · intro j hj
        by_cases hji : j = i
        · subst hji; rw [hrange j hj] at hw; cases hw
        · rw [setW_other _ _ _ _ hji]; exact hrange j hj
  | toRelease =>
    have howner : s.owner = some i := hcs i (by rw [hw]; rfl)
    have hred : wstep fs bad s i =
        { s with owner := none, workers := setW s.workers i .finished } := by
      simp [wstep, hw]
    rw [hred]
    refine ⟨?_, ?_, ?_, ?_, ?_, ?_⟩ <;> dsimp only
    · intro j h
      by_cases hj : j = i
      · subst hj; rw [setW_self] at h; simp [inCS] at h
      · rw [setW_other _ _ _ _ hj] at h
        have := hcs j h
        rw [howner] at this
        cases this
        exact absurd rfl hj
    · intro j t h
      by_cases hj : j = i
      · subst hj; rw [setW_self] at h; cases h
      · rw [setW_other _ _ _ _ hj] at h; exact htmp j t h
    · exact hcounter
    · intro j
      by_cases hj : j = i
      · subst hj
        rw [setW_self]
        simp only [hlog, hw]
        simp
      · rw [setW_other _ _ _ _ hj]; exact hlog j
    · exact hnodup
    · intro j hj
      by_cases hji : j = i
      · subst hji; rw [hrange j hj] at hw; cases hw
      · rw [setW_other _ _ _ _ hji]; exact hrange j hj

/-- The invariant holds in every reachable state of a run. -/
theorem inv_run (fs : Nat → Nat → Nat) (bad : Nat → Nat → Bool) (n v0 : Nat)
    (s : CState) (hInv : Inv fs n v0 s) (sched : List Nat) :
    Inv fs n v0 (run fs bad s sched) := by
  induction sched generalizing s with
  | nil => exact hInv
  | cons a t ih => exact ih _ (inv_step fs bad n v0 s hInv a)

/-- Folding the demo's increment over a commit log adds the log's length. -/
theorem foldl_inc (l : List Nat) (v : Nat) :
    l.foldl (fun v j => demoFs j v) v = v + l.length := by
  induction l generalizing v with
  | nil => simp
  | cons a t ih =>
    rw [List.foldl_cons, ih]
    simp only [demoFs, List.length_cons]
    omega

/-- C1: for every number of workers `n` and every schedule under which all
`n` workers of the demo's counter section have terminated normally, the final
counter value is exactly `n`: one increment per worker, none lost, whatever
the interleaving. -/
theorem counter_exact (n : Nat) (sched : List Nat)
    (hfin : allFinished n (demoRun n sched)) :
    (demoRun n sched).counter = n := by
  have hInv := inv_run demoFs demoBad n 0 _ (inv_init demoFs n 0) sched
  simp only [demoRun, run] at hfin ⊢
  obtain ⟨hcs, htmp, hcounter, hlog, hnodup, hrange⟩ := hInv
  simp only [run] at hcounter hlog hnodup hrange
  have hmem : ∀ j, j ∈ (List.foldl (wstep demoFs demoBad) (initState n 0) sched).log ↔ j < n := by
    intro j
    constructor
    · intro hmemj
      by_contra hnj
      have habs := hrange j (by omega)
      rcases (hlog j).1 hmemj with h1 | h1 <;> rw [habs] at h1 <;> cases h1
    · intro hj
      exact (hlog j).2 (Or.inr (hfin j hj))
  have htof : (List.foldl (wstep demoFs demoBad) (initState n 0) sched).log.toFinset
      = Finset.range n := by
    ext a
    simp [List.mem_toFinset, Finset.mem_range, hmem]
  have hlen : (List.foldl (wstep demoFs demoBad) (initState n 0) sched).log.length = n := by
    rw [← List.toFinset_card_of_nodup hnodup, htof, Finset.card_range]
  rw [hcounter, foldl_inc, hlen]
  omega

/-- Schedule of the concrete demo scenario: each of the 10 spawned workers
runs its four machine steps in turn. -/
def demoSched10 : List Nat :=
  (List.range 10).bind (fun i => List.replicate 4 i)

theorem counter_exact_witness :
    allFinished 10 (demoRun 10 demoSched10) ∧ (demoRun 10 demoSched10).counter = 10 :=
  ⟨by decide, counter_exact 10 demoSched10 (by decide)⟩

/-- C2: mutual exclusion.  In every reachable state of the demo's counter
section, under any mutations, any panic behaviour and any schedule, two
workers inside a critical section of the same container are the same worker,
and a worker inside its critical section holds the mutex — the protected
value is only ever read (`toRead`) or written (`toWrite`) by the unique
current owner of the lock. -/
theorem mutual_exclusion (fs : Nat → Nat → Nat) (bad : Nat → Nat → Bool)
    (n v0 : Nat) (sched : List Nat) (i j : Nat)
    (hi : inCS ((run fs bad (initState n v0) sched).workers i) = true)
    (hj : inCS ((run fs bad (initState n v0) sched).workers j) = true) :
    i = j ∧ (run fs bad (initState n v0) sched).owner = some i := by
  have hInv := inv_run fs bad n v0 _ (inv_init fs n v0) sched
  have h1 := hInv.hcs i hi
  have h2 := hInv.hcs j hj
  rw [h1] at h2
  exact ⟨Option.some.inj h2, h1⟩

theorem mutual_exclusion_witness :
    inCS ((run demoFs demoBad (initState 1 0) [0]).workers 0) = true ∧
    (0 = 0 ∧ (run demoFs demoBad (initState 1 0) [0]).owner = some 0) :=
  ⟨by decide, mutual_exclusion demoFs demoBad 1 0 [0] 0 0 (by decide) (by decide)⟩

/-- C3: visibility of completed mutations.  In every reachable state, the
value a worker has read inside its critical section (recorded in `toWrite`)
is the current counter, and the counter is exactly the composite of all
committed mutations applied in commit order to the initial value: every
subsequent exclusive access, by whatever worker the scheduler picks, observes
the state produced by the mutations that completed before it. -/
theorem effect_visible (fs : Nat → Nat → Nat) (bad : Nat → Nat → Bool)
    (n v0 : Nat) (sched : List Nat) (i tmp : Nat)
    (h : (run fs bad (initState n v0) sched).workers i = .toWrite tmp) :
    tmp = (run fs bad (initState n v0) sched).counter ∧
    (run fs bad (initState n v0) sched).counter =
      (run fs bad (initState n v0) sched).log.foldl (fun v j => fs j v) v0 := by
  have hInv := inv_run fs bad n v0 _ (inv_init fs n v0) sched
  exact ⟨hInv.htmp i tmp h, hInv.hcounter⟩

theorem effect_visible_witness :
    (run demoFs demoBad (initState 1 0) [0, 0]).workers 0 = .toWrite 0 ∧
    (0 = (run demoFs demoBad (initState 1 0) [0, 0]).counter ∧
     (run demoFs demoBad (initState 1 0) [0, 0]).counter =
       (run demoFs demoBad (initState 1 0) [0, 0]).log.foldl
         (fun v j => demoFs j v) 0) :=
  ⟨by decide, effect_visible demoFs demoBad 1 0 [0, 0] 0 0 (by decide)⟩

/-- Error raised when acquiring a poisoned mutex. -/
inductive LockErr where
  | poisonedLock
  deriving DecidableEq

/-- The coordinator's final `*counter.lock().unwrap()` (line 708): after all
joins, acquiring the mutex yields the counter unless the mutex was poisoned
by a panicking worker. -/
def finalRead (s : CState) : Except LockErr Nat :=
  if s.poisoned then .error .poisonedLock else .ok s.counter

/-- A single demo step never poisons the mutex and never fails a worker:
the demo's closures have no panicking operation (`demoBad` is everywhere
false), so the poison branch of `lock().unwrap()` is unreachable. -/
theorem demo_step_clean (fs : Nat → Nat → Nat) (s : CState) (i : Nat)
    (h1 : s.poisoned = false) (h2 : ∀ j, s.workers j ≠ .failed) :
    (wstep fs demoBad s i).poisoned = false ∧
    (∀ j, (wstep fs demoBad s i).workers j ≠ .failed) := by
  cases hw : s.workers i with
  | absent => rw [show wstep fs demoBad s i = s by simp [wstep, hw]]; exact ⟨h1, h2⟩
  | finished => rw [show wstep fs demoBad s i = s by simp [wstep, hw]]; exact ⟨h1, h2⟩
  | failed => rw [show wstep fs demoBad s i = s by simp [wstep, hw]]; exact ⟨h1, h2⟩
  | toAcquire =>
    by_cases ho : s.owner = none
    · rw [show wstep fs demoBad s i
          = { s with owner := some i, workers := setW s.workers i .toRead } by
        simp [wstep, hw, ho, h1]]
      refine ⟨h1, ?_⟩
      intro j
      dsimp only
      by_cases hj : j = i
      · subst hj; rw [setW_self]; simp
      · rw [setW_other _ _ _ _ hj]; exact h2 j
    · rw [show wstep fs demoBad s i = s by simp [wstep, hw, ho]]; exact ⟨h1, h2⟩
  | toRead =>
    rw [show wstep fs demoBad s i
        = { s with workers := setW s.workers i (.toWrite s.counter) } by
      simp [wstep, hw]]
    refine ⟨h1, ?_⟩
    intro j
    dsimp only
    by_cases hj : j = i
    · subst hj; rw [setW_self]; simp
    · rw [setW_other _ _ _ _ hj]; exact h2 j
  | toWrite tmp =>
    rw [show wstep fs demoBad s i
        = { s with counter := fs i tmp,
                   workers := setW s.workers i .toRelease,
                   log := s.log ++ [i] } by
      simp [wstep, hw, demoBad]]
    refine ⟨h1, ?_⟩
    intro j
    dsimp only
    by_cases hj : j = i
    · subst hj; rw [setW_self]; simp
    · rw [setW_other _ _ _ _ hj]; exact h2 j
  | toRelease =>
    rw [show wstep fs demoBad s i
        = { s with owner := none, workers := setW s.workers i .finished } by
      simp [wstep, hw]]
    refine ⟨h1, ?_⟩
    intro j
    dsimp only
    by_cases hj : j = i
    · subst hj; rw [setW_self]; simp
    · rw [setW_other _ _ _ _ hj]; exact h2 j

theorem demo_run_clean (fs : Nat → Nat → Nat) (sched : List Nat) (s : CState)
    (h1 : s.poisoned = false) (h2 : ∀ j, s.workers j ≠ .failed) :
    (run fs demoBad s sched).poisoned = false ∧
    (∀ j, (run fs demoBad s sched).workers j ≠ .failed) := by
  induction sched generalizing s with
  | nil => exact ⟨h1, h2⟩
  | cons a t ih =>
    have := demo_step_clean fs s a h1 h2
    exact ih (wstep fs demoBad s a) this.1 this.2

/-- C9: in the demo's counter scenario no worker closure ever panics, so in
every reachable state under every schedule the mutex is unpoisoned, no worker
ends in the `failed` state (every `handle.join().unwrap()` succeeds), and the
coordinator's final `counter.lock().unwrap()` returns the counter instead of
a poison error: the panic branches of these unwraps are unreachable. -/
theorem demo_unwraps_safe (n : Nat) (sched : List Nat) :
    (demoRun n sched).poisoned = false ∧
    (∀ i, (demoRun n sched).workers i ≠ .failed) ∧
    finalRead (demoRun n sched) = Except.ok (demoRun n sched).counter := by
  have hinit2 : ∀ j, (initState n 0).workers j ≠ WPc.failed := by
    intro j
    simp only [initState]
    split <;> simp
  have h := demo_run_clean demoFs sched (initState n 0) rfl hinit2
  refine ⟨h.1, h.2, ?_⟩
  simp only [demoRun] at h ⊢
  simp [finalRead, h.1]

theorem demo_unwraps_safe_witness :
    (demoRun 2 [0, 0, 0, 0, 1, 1, 1, 1]).poisoned = false :=
  (demo_unwraps_safe 2 [0, 0, 0, 0, 1, 1, 1, 1]).1

/-- Modelled from the spec: result of one `with_exclusive_access` call on a
`SharedContainer` (the repository only contains the demo caller; the
container API of spec section 4.1 itself is not in the source).  `ok v` is a
normal critical section ending with value `v`; `panicked` is the caller's own
abnormal termination inside the critical section; `poisonedLock` is the
`PoisonedLock` condition surfaced when acquiring a poisoned container. -/
inductive AccessRes where
  | ok (v : Nat)
  | panicked
  | poisonedLock
  deriving DecidableEq

/-- Modelled from the spec: a `SharedContainer` holds the protected value and
the poison flag of its lock.  The value type is specialised to `Nat` as in
the demo. -/
structure SContainer where
  value : Nat
  poisoned : Bool
  deriving DecidableEq

/-- Modelled from the spec: `create(initial)` allocates the value and its
lock; never fails. -/
def create (v : Nat) : SContainer := ⟨v, false⟩

/-- Modelled from the spec: `with_exclusive_access(c, f)`.  The mutation `f`
returns `none` to represent abnormal termination while holding the lock,
which poisons the container; acquiring a poisoned container surfaces the
`PoisonedLock` condition to the caller and leaves the value untouched. -/
def with_exclusive_access (c : SContainer) (f : Nat → Option Nat) :
    AccessRes × SContainer :=
  if c.poisoned then (.poisonedLock, c)
  else
    match f c.value with
    | some v => (.ok v, ⟨v, false⟩)
    | none => (.panicked, ⟨c.value, true⟩)

/-- Modelled from the spec: a caller that can prove consistency may
explicitly force-clear the poison. -/
def clear_poison (c : SContainer) : SContainer := ⟨c.value, false⟩

/-- Modelled from the spec: a worker either enters `with_exclusive_access`
with its mutation, or terminates abnormally before ever acquiring the
lock. -/
inductive Worker where
  | acquires (f : Nat → Option Nat)
  | failsEarly

/-- Modelled from the spec: running one worker against a container. -/
def runWorker (c : SContainer) (w : Worker) : AccessRes × SContainer :=
  match w with
  | .acquires f => with_exclusive_access c f
  | .failsEarly => (.panicked, c)

/-- C4: if a worker terminates abnormally while holding exclusive access to
an unpoisoned container, the next `with_exclusive_access` on that container
(with any mutation `g`) surfaces the `PoisonedLock` condition rather than
silently running; the container is marked poisoned; a worker that fails
without ever acquiring the lock leaves the container — and in particular its
poison state — unchanged; and a caller that force-clears the poison can
acquire again without seeing `PoisonedLock`. -/
theorem poison_on_abnormal_exit (c : SContainer) (f g : Nat → Option Nat)
    (hnp : c.poisoned = false) (hf : f c.value = none) :
    (with_exclusive_access (with_exclusive_access c f).2 g).1 = .poisonedLock ∧
    (with_exclusive_access c f).2.poisoned = true ∧
    (runWorker c .failsEarly).2 = c ∧
    (with_exclusive_access (clear_poison (with_exclusive_access c f).2) g).1 ≠ .poisonedLock := by
  have h2 : (with_exclusive_access c f).2 = ⟨c.value, true⟩ := by
    simp [with_exclusive_access, hnp, hf]
  refine ⟨?_, ?_, rfl, ?_⟩
  · rw [h2]
    simp [with_exclusive_access]
  · rw [h2]
  · rw [h2]
    simp only [clear_poison, with_exclusive_access]
    cases hg : g c.value <;> simp [hg]

theorem poison_on_abnormal_exit_witness :
    (create 0).poisoned = false ∧
    (fun _ : Nat => (none : Option Nat)) (create 0).value = none ∧
    ((with_exclusive_access (with_exclusive_access (create 0) (fun _ => none)).2
        (fun v => some v)).1 = .poisonedLock ∧
     (with_exclusive_access (create 0) (fun _ => none)).2.poisoned = true ∧
     (runWorker (create 0) .failsEarly).2 = create 0 ∧
     (with_exclusive_access (clear_poison (with_exclusive_access (create 0)
        (fun _ => none)).2) (fun v => some v)).1 ≠ .poisonedLock) :=
  ⟨rfl, rfl,
    poison_on_abnormal_exit (create 0) (fun _ => none) (fun v => some v) rfl rfl⟩

/-- Modelled from the spec: the outcome `join` returns for one worker.
`completed v` is normal termination, `workerFailed e` wraps a worker's
abnormal termination as data (never re-raised), `doubleJoin` flags the usage
error of joining one handle twice. -/
inductive Outcome where
  | completed (v : Nat)
  | workerFailed (e : Nat)
  | doubleJoin
  deriving DecidableEq

/-- Modelled from the spec: how one worker terminated (its payloads are
abstracted to `Nat`). -/
inductive WorkerRes where
  | ok (v : Nat)
  | panicked (e : Nat)
  deriving DecidableEq

/-- Modelled from the spec: a `WorkHandle` is either still joinable — `join`
blocks until the worker terminates, so the handle carries the worker's
eventual result — or already consumed by a previous `join` (the terminal
`Consumed` marker of the spec's handle state machine). -/
inductive HandleSt where
  | alive (r : WorkerRes)
  | consumed
  deriving DecidableEq

/-- Modelled from the spec: `join(handle)` returns the worker's outcome and
the handle's next state.  A panicked worker yields `WorkerFailed` as data; a
consumed handle yields `DoubleJoin`. -/
def joinH : HandleSt → Outcome × HandleSt
  | .alive (.ok v) => (.completed v, .consumed)
  | .alive (.panicked e) => (.workerFailed e, .consumed)
  | .consumed => (.doubleJoin, .consumed)

/-- Modelled from the spec: `join_all` joins each handle of the sequence in
the given order and collects the outcomes. -/
def joinAll : List HandleSt → List Outcome
  | [] => []
  | h :: t => (joinH h).1 :: joinAll t

/-- C5: `join` on the handle of a worker that terminated abnormally returns
a `WorkerFailed` outcome wrapping the failure as data — it does not itself
fail or re-raise, it returns, consuming the handle — and failures are
isolated per worker: replacing worker `j`'s result with a failure leaves the
outcome of every sibling position `i ≠ j` of `join_all` unchanged. -/
theorem join_captures_failure (e : Nat) (hs : List HandleSt) (i j : Nat)
    (hne : i ≠ j) :
    (joinH (.alive (.panicked e))).1 = .workerFailed e ∧
    (joinH (.alive (.panicked e))).2 = .consumed ∧
    (joinAll (hs.set j (.alive (.panicked e))))[i]? = (joinAll hs)[i]? := by
  refine ⟨rfl, rfl, ?_⟩
  induction hs generalizing i j with
  | nil => simp [joinAll]
  | cons h t ih =>
    cases j with
    | zero =>
      cases i with
      | zero => exact absurd rfl hne
      | succ i' => simp [List.set, joinAll]
    | succ j' =>
      cases i with
      | zero => simp [List.set, joinAll]
      | succ i' =>
        simp only [List.set, joinAll, List.getElem?_cons_succ]
        exact ih i' j' (fun hc => hne (by rw [hc]))

theorem join_captures_failure_witness :
    (0 : Nat) ≠ 1 ∧
    ((joinH (.alive (.panicked 7))).1 = .workerFailed 7 ∧
     (joinH (.alive (.panicked 7))).2 = .consumed ∧
     (joinAll ([HandleSt.alive (.ok 3), .alive (.ok 4)].set 1
        (.alive (.panicked 7))))[0]? =
       (joinAll [HandleSt.alive (.ok 3), .alive (.ok 4)])[0]?) :=
  ⟨by decide, join_captures_failure 7 [HandleSt.alive (.ok 3), .alive (.ok 4)] 0 1 (by decide)⟩

/-- C6: joining a handle a second time always yields `DoubleJoin`,
deterministically: the first `join` leaves every handle in the terminal
`consumed` state, a consumed handle joins to `DoubleJoin`, and `consumed` is
terminal (further joins keep yielding `DoubleJoin`). -/
theorem double_join_rejected (h : HandleSt) :
    (joinH (joinH h).2).1 = .doubleJoin ∧
    (joinH h).2 = .consumed ∧
    (joinH (joinH h).2).2 = .consumed := by
  cases h with
  | alive r => cases r <;> exact ⟨rfl, rfl, rfl⟩
  | consumed => exact ⟨rfl, rfl, rfl⟩

/-- C7: `join_all` produces exactly one outcome per handle, and the outcome
at every position `i` of the returned sequence is the outcome of joining the
`i`-th handle of the input sequence: results are ordered to match the input
sequence, whatever order the workers actually completed in (the handles'
results are arbitrary here, so the statement is independent of completion
order). -/
theorem join_all_ordered (hs : List HandleSt) :
    (joinAll hs).length = hs.length ∧
    ∀ i : Nat, (joinAll hs)[i]? = (hs[i]?).map (fun h => (joinH h).1) := by
  induction hs with
  | nil => exact ⟨rfl, fun i => by simp [joinAll]⟩
  | cons h t ih =>
    refine ⟨by simpa [joinAll] using ih.1, ?_⟩
    intro i
    cases i with
    | zero => simp [joinAll]
    | succ i' =>
      simp only [joinAll, List.getElem?_cons_succ]
      exact ih.2 i'

/-- Modelled from the spec: the reference-counted heap behind `Arc::clone`
(line 696).  Containers are addressed by `Nat` ids; `val` is the inner value
(`none` once freed) and `rc` the strong ownership count. -/
structure ArcHeap where
  val : Nat → Option Nat
  rc : Nat → Nat

/-- Modelled from the spec: `clone_handle(c)` returns a new handle to the
same underlying value — the same id, no copy of the value — and increments
the shared ownership count; it never fails. -/
def clone_handle (σ : ArcHeap) (h : Nat) : Nat × ArcHeap :=
  (h, { σ with rc := fun j => if j = h then σ.rc j + 1 else σ.rc j })

/-- Modelled from the spec: dropping a handle decrements the ownership count
and frees the storage when the last handle is dropped. -/
def drop_handle (σ : ArcHeap) (h : Nat) : ArcHeap :=
  if σ.rc h ≤ 1 then
    { val := fun j => if j = h then none else σ.val j,
      rc := fun j => if j = h then 0 else σ.rc j }
  else { σ with rc := fun j => if j = h then σ.rc h - 1 else σ.rc j }

/-- `n` successive clones of handle `h`. -/
def cloneN : Nat → ArcHeap → Nat → ArcHeap
  | 0, σ, _ => σ
  | n + 1, σ, h => cloneN n (clone_handle σ h).2 h

/-- `n` successive drops of handle `h`. -/
def dropN : Nat → ArcHeap → Nat → ArcHeap
  | 0, σ, _ => σ
  | n + 1, σ, h => dropN n (drop_handle σ h) h

theorem cloneN_spec (h : Nat) : ∀ (n : Nat) (σ : ArcHeap),
    (cloneN n σ h).val = σ.val ∧ (cloneN n σ h).rc h = σ.rc h + n := by
  intro n
  induction n with
  | zero => intro σ; exact ⟨rfl, rfl⟩
  | succ n' ih =>
    intro σ
    have hstep := ih (clone_handle σ h).2
    refine ⟨hstep.1.trans rfl, ?_⟩
    rw [show cloneN (n' + 1) σ h = cloneN n' (clone_handle σ h).2 h from rfl, hstep.2]
    simp [clone_handle]
    omega

theorem dropN_keeps (h : Nat) : ∀ (n : Nat) (σ : ArcHeap), n + 1 ≤ σ.rc h →
    (dropN n σ h).val = σ.val ∧ (dropN n σ h).rc h = σ.rc h - n := by
  intro n
  induction n with
  | zero => intro σ _; exact ⟨rfl, by simp [dropN]⟩
  | succ n' ih =>
    intro σ hσ
    have hgt : ¬σ.rc h ≤ 1 := by omega
    have hdrop : drop_handle σ h =
        { σ with rc := fun j => if j = h then σ.rc h - 1 else σ.rc j } := by
      simp [drop_handle, hgt]
    have hrc2 : (drop_handle σ h).rc h = σ.rc h - 1 := by
      rw [hdrop]; simp
    have hstep := ih (drop_handle σ h) (by omega)
    have hval2 : (drop_handle σ h).val = σ.val := by rw [hdrop]
    refine ⟨?_, ?_⟩
    · rw [show dropN (n' + 1) σ h = dropN n' (drop_handle σ h) h from rfl, hstep.1, hval2]
    · rw [show dropN (n' + 1) σ h = dropN n' (drop_handle σ h) h from rfl, hstep.2, hrc2]
      omega

/-- C8: `clone_handle` returns a handle to the same container (same id, the
inner value is untouched, no copy happens), it only bumps the ownership
count, and cloning `n` handles then dropping all `n` clones leaves the
container's value, identity and ownership count exactly as before —
reference counting does not corrupt state as long as one handle remains. -/
theorem clone_handle_shares (σ : ArcHeap) (h n : Nat) (hr : 1 ≤ σ.rc h) :
    (clone_handle σ h).1 = h ∧
    (clone_handle σ h).2.val = σ.val ∧
    (clone_handle σ h).2.rc h = σ.rc h + 1 ∧
    (dropN n (cloneN n σ h) h).val = σ.val ∧
    (dropN n (cloneN n σ h) h).rc h = σ.rc h := by
  have hc := cloneN_spec h n σ
  have hd := dropN_keeps h n (cloneN n σ h) (by omega)
  refine ⟨rfl, rfl, by simp [clone_handle], ?_, ?_⟩
  · rw [hd.1, hc.1]
  · rw [hd.2, hc.2]
    omega

/-- Concrete one-container heap used to exercise `clone_handle`. -/
def wheap : ArcHeap :=
  { val := fun j => if j = 0 then some 5 else none,
    rc := fun j => if j = 0 then 1 else 0 }

theorem clone_handle_shares_witness :
    1 ≤ wheap.rc 0 ∧
    ((clone_handle wheap 0).1 = 0 ∧
     (clone_handle wheap 0).2.val = wheap.val ∧
     (clone_handle wheap 0).2.rc 0 = wheap.rc 0 + 1 ∧
     (dropN 3 (cloneN 3 wheap 0) 0).val = wheap.val ∧
     (dropN 3 (cloneN 3 wheap 0) 0).rc 0 = wheap.rc 0) :=
  ⟨by decide, clone_handle_shares wheap 0 3 (by decide)⟩

/-- The demo coordinator's spawn state: the source of fresh thread ids and
the `handles` vector, in spawn order (`handles.push(handle)` at line 701). -/
structure Coord where
  next : Nat
  handles : List Nat

/-- One iteration of the spawn loop: spawn a worker, obtaining a fresh
handle, and push it onto the vector. -/
def spawnOne (c : Coord) : Coord :=
  { next := c.next + 1, handles := c.handles ++ [c.next] }

/-- The demo's spawn loop `for _ in 0..n`. -/
def spawnN : Nat → Coord → Coord
  | 0, c => c
  | n + 1, c => spawnN n (spawnOne c)

/-- The coordinator state after the demo's spawn loop. -/
def demoSpawn (n : Nat) : Coord := spawnN n { next := 0, handles := [] }

/-- The demo's join loop `for handle in handles { handle.join().unwrap(); }`
consumes the vector by value and moves each handle into `join` in order: the
sequence of joined handles is the handles vector itself, traversed once. -/
def joinedSeq (c : Coord) : List Nat := c.handles

theorem spawnN_spec : ∀ (n k : Nat) (l : List Nat),
    spawnN n ⟨k, l⟩ = ⟨k + n, l ++ List.range' k n⟩ := by
  intro n
  induction n with
  | zero => intro k l; simp [spawnN, List.range']
  | succ n' ih =>
    intro k l
    show spawnN n' (spawnOne ⟨k, l⟩) = _
    rw [show spawnOne ⟨k, l⟩ = (⟨k + 1, l ++ [k]⟩ : Coord) from rfl, ih]
    congr 1
    · omega
    · rw [List.append_assoc, List.range'_succ]
      rfl

/-- C10: every handle created by the demo coordinator is joined exactly once.
The spawn loop produces pairwise distinct handles, one per worker, and the
join loop traverses that vector once in order, so the joined sequence
contains each spawned handle exactly once (and, the vector being consumed,
nothing is joined beyond it). -/
theorem handles_joined_once (n : Nat) :
    (joinedSeq (demoSpawn n)).Nodup ∧
    (joinedSeq (demoSpawn n)).length = n ∧
    ∀ h ∈ (demoSpawn n).handles, (joinedSeq (demoSpawn n)).count h = 1 := by
  have hspec : demoSpawn n = ⟨n, List.range n⟩ := by
    rw [demoSpawn, spawnN_spec n 0 []]
    simp [List.range_eq_range']
  rw [hspec]
  refine ⟨?_, ?_, ?_⟩
  · simpa [joinedSeq] using List.nodup_range n
  · simp [joinedSeq]
  · intro h hmem
    simp only [joinedSeq] at hmem ⊢
    exact List.count_eq_one_of_mem (List.nodup_range n) hmem

theorem handles_joined_once_witness :
    1 ∈ (demoSpawn 3).handles ∧ (joinedSeq (demoSpawn 3)).count 1 = 1 :=
  ⟨by decide, (handles_joined_once 3).2.2 1 (by decide)⟩

end RustDemo
